import Mathlib

/-!
Verification of the rebase-downstream-branches core.

Shallow embedding of the repository's core logic:

* `bin/utils/validation.js` — `sanitizeBranchName`, `isProtectedBranch`
* `bin/utils/github.js` — `findPRsTargeting` (over an abstract `gh pr list` collaborator)
* `bin/core/chain-builder.js` — `buildPRChain` (as fuel-indexed `buildPRChainAux`)
* `bin/utils/git.js` — `hasConflict`; the remaining git primitives are modelled
  as an oracle (`RunOracle`) plus an explicit event trace (`Event`)
* `bin/core/rebase.js` — `rebaseBranch` (reset + cherry-pick replay loop)
* `bin/cli/index.js` — `executeRebase` loop and the post-discovery part of `main`

Conventions: a JavaScript function that throws is embedded as `Except`;
`process.exit(code)` is embedded as an `exitCode` component that, once set,
suppresses all later effects; every external git/gh side effect the claims talk
about (backup-ref creation, checkout, reset, cherry-pick attempt, cherry-pick
skip, force push) is recorded in an `Event` trace.
-/

namespace RebaseDownstream

/-- Substring test on character lists: `hasInfix sub l` holds iff `sub` occurs
contiguously inside `l`.  Models JavaScript `String.prototype.includes`. -/
def hasInfix (sub : List Char) : List Char → Bool
  | [] => sub.isEmpty
  | c :: rest => sub.isPrefixOf (c :: rest) || hasInfix sub rest

/-- One character of the regex class `[a-zA-Z0-9/_.-]` used by
`sanitizeBranchName` in `bin/utils/validation.js`. -/
def isValidChar (c : Char) : Bool :=
  (decide ('a' ≤ c) && decide (c ≤ 'z')) ||
  (decide ('A' ≤ c) && decide (c ≤ 'Z')) ||
  (decide ('0' ≤ c) && decide (c ≤ '9')) ||
  c == '/' || c == '_' || c == '.' || c == '-'

/-- Function `sanitizeBranchName` from `bin/utils/validation.js`.
The JS tests `/^[a-zA-Z0-9/_.-]+$/.test(branch)` (note `+`: at least one
character) and throws on failure; then throws if the name contains `..` or
starts with `-`; otherwise returns the name unchanged.  Throwing is embedded
as `Except.error` carrying the message prefix. -/
def sanitizeBranchName (branch : String) : Except String String :=
  if !(decide (0 < branch.toList.length) && branch.toList.all isValidChar) then
    Except.error ("Invalid branch name: " ++ branch)
  else if hasInfix ['.', '.'] branch.toList || ['-'].isPrefixOf branch.toList
  then
    Except.error ("Potentially unsafe branch name: " ++ branch)
  else
    Except.ok branch

/-- JavaScript `String.prototype.toLowerCase`, as a character-list map.
(Lean's own `String.toLower` is compiled code that the kernel cannot
evaluate; this definition is extensionally the same mapping and keeps the
embedding executable inside proofs.) -/
def lowerString (s : String) : String :=
  String.mk (s.toList.map Char.toLower)

/-- Function `isProtectedBranch` from `bin/utils/validation.js`: case-insensitive
membership in the fixed protected set. -/
def isProtectedBranch (branch : String) : Bool :=
  ["main", "master", "develop", "development", "staging", "production",
    "prod"].contains (lowerString branch)

/-- One element of the JSON array returned by
`gh pr list --base <branch> --state open --json number,headRefName,title`.
`baseRefName` records which base the PR targets so that a whole repository's
open-PR set can be modelled as one finite list which the collaborator filters
by base (exactly what the `--base` flag does). -/
structure RawPR where
  number : Nat
  headRefName : String
  baseRefName : String
  title : String
deriving DecidableEq, Repr

/-- A discovered PR link as produced by `findPRsTargeting` in
`bin/utils/github.js`: `{ number, branch: sanitized headRefName, title,
target: baseBranch }`. -/
structure PR where
  number : Nat
  branch : String
  title : String
  target : String
deriving DecidableEq, Repr

/-- The `.map` body inside `findPRsTargeting`: build a `PR` from each raw
entry, sanitizing the head name.  JavaScript `Array.prototype.map` applies
left to right and the first `sanitizeBranchName` throw aborts the whole map;
that is exactly `Except` propagation here. -/
def mapPRs (baseBranch : String) : List RawPR → Except String (List PR)
  | [] => Except.ok []
  | pr :: rest =>
    match sanitizeBranchName pr.headRefName with
    | Except.error e => Except.error e
    | Except.ok b =>
      match mapPRs baseBranch rest with
      | Except.error e => Except.error e
      | Except.ok prs => Except.ok (PR.mk pr.number b pr.title baseBranch :: prs)

/-- Function `findPRsTargeting` from `bin/utils/github.js`.  The whole body sits in a
`try { ... } catch { return [] }`: a sanitize failure of the base, a failed or
falsy `gh` invocation (`ghList _ = none`), or a sanitize failure of any
returned head name all make the function log a warning and return `[]`. -/
def findPRsTargeting (ghList : String → Option (List RawPR))
    (baseBranch : String) : List PR :=
  match sanitizeBranchName baseBranch with
  | Except.error _ => []
  | Except.ok safeBranch =>
    match ghList safeBranch with
    | none => []
    | some raws =>
      match mapPRs baseBranch raws with
      | Except.error _ => []
      | Except.ok prs => prs

/-- The `while (true)` loop of `buildPRChain` in `bin/core/chain-builder.js`,
made structural with a fuel parameter.  Per iteration: stop if the cursor was
already visited (cycle guard, chain kept); otherwise mark it visited, look up
the open PRs targeting it, stop if none, else append the first PR and move the
cursor to its head branch.  `buildPRChainAux_fuel_stable` below proves the
fuel is irrelevant once it exceeds the number of distinct PR bases, i.e. the
source loop terminates. -/
def buildPRChainAux (lookup : String → List PR) :
    Nat → List String → String → List PR
  | 0, _, _ => []
  | fuel + 1, visited, currentBranch =>
    if visited.contains currentBranch then []
    else
      match lookup currentBranch with
      | [] => []
      | pr :: _ =>
        pr :: buildPRChainAux lookup fuel (currentBranch :: visited) pr.branch

/-- The `gh pr list --base` collaborator for a repository whose open PRs are
the finite list `graph`. -/
def ghLookup (graph : List RawPR) : String → Option (List RawPR) :=
  fun base => some (graph.filter (fun pr => pr.baseRefName == base))

/-- Discovery: `buildPRChain(startBranch, host)` composed with the real
`findPRsTargeting`, for a repository with open-PR set `graph`.  Fuel
`graph.length + 1` is sufficient (theorem `discovery_terminates`). -/
def discoverChain (graph : List RawPR) (startBranch : String) : List PR :=
  buildPRChainAux (findPRsTargeting (ghLookup graph))
    (graph.length + 1) [] startBranch

/-- Function `getBranchesInChain` from `bin/core/chain-builder.js`. -/
def getBranchesInChain (chain : List PR) : List String :=
  chain.map (fun item => item.branch)

/-- Function `hasConflict` from `bin/utils/git.js`: the porcelain status text contains
one of the both-modified / both-added / both-deleted markers. -/
def hasConflict (status : String) : Bool :=
  hasInfix ['U', 'U'] status.toList ||
  hasInfix ['A', 'A'] status.toList ||
  hasInfix ['D', 'D'] status.toList

/-- One observable git side effect issued by the core.  `applyAttempt` is a
`git cherry-pick <hash>` invocation, `skipCommit` a `git cherry-pick --skip`,
`push` a successful `git push origin <branch> --force-with-lease`,
`backup` a successful `git update-ref refs/backup/... <branch>`. -/
inductive Event where
  | fetchOrigin
  | backup (branch ref : String)
  | checkout (branch : String)
  | pull (branch : String)
  | reset (target : String)
  | applyAttempt (hash : String)
  | skipCommit (hash : String)
  | push (branch : String)
deriving DecidableEq, Repr

/-- What a call to `rebaseBranch` in `bin/core/rebase.js` does besides its
trace: `returned v` is a normal `return v` (the source only ever returns
`true`), `exited c` is `process.exit(c)`, `threw` is an uncaught exception
(propagated to `executeRebase`'s catch). -/
inductive RebaseResult where
  | returned (value : Bool)
  | exited (code : Nat)
  | threw
deriving DecidableEq, Repr

/-- Oracle describing how the repository responds to the git primitives in
`bin/utils/git.js` during one run:

* `ownCommits b t` — output of `git log t..b --oneline` hashes, newest first
  (`getBranchOwnCommits`);
* `applyResult h` — `none` when `git cherry-pick h` succeeds, `some status`
  when it fails with `git status --porcelain` then reading `status`;
* `checkoutOk` / `resetOk` — whether `git checkout` / `git reset --hard`
  succeed (they throw otherwise);
* `backupRef b` — the ref `createBackup b` returns, `none` when it fails
  (its internal try/catch returns `null`);
* `pushOk b` — whether `git push --force-with-lease` succeeds. -/
structure RunOracle where
  ownCommits : String → String → List String
  applyResult : String → Option String
  checkoutOk : String → Bool
  resetOk : String → Bool
  backupRef : String → Option String
  pushOk : String → Bool

/-- The cherry-pick loop of `rebaseBranch`: for each hash in order, attempt
the apply; on failure inspect the status — a genuine conflict calls
`process.exit(1)` on the spot, otherwise `git cherry-pick --skip` and
continue. -/
def replayCommits (applyResult : String → Option String) :
    List String → List Event × RebaseResult
  | [] => ([], RebaseResult.returned true)
  | h :: rest =>
    match applyResult h with
    | none =>
      let (es, r) := replayCommits applyResult rest
      (Event.applyAttempt h :: es, r)
    | some status =>
      if hasConflict status then
        ([Event.applyAttempt h], RebaseResult.exited 1)
      else
        let (es, r) := replayCommits applyResult rest
        (Event.applyAttempt h :: Event.skipCommit h :: es, r)

/-- Function `rebaseBranch(branch, onto)` from `bin/core/rebase.js`.  Collect the
branch's own commits; if none, return `true` immediately with no side effect.
Otherwise (the source reverses the newest-first log output in place, so the
loop runs oldest first) checkout the branch, hard-reset it to `onto`, and
replay each commit. -/
def rebaseBranch (g : RunOracle) (branch onto : String) :
    List Event × RebaseResult :=
  let commitHashes := g.ownCommits branch onto
  if commitHashes.length == 0 then
    ([], RebaseResult.returned true)
  else if !g.checkoutOk branch then
    ([], RebaseResult.threw)
  else if !g.resetOk onto then
    ([Event.checkout branch], RebaseResult.threw)
  else
    let (es, r) := replayCommits g.applyResult commitHashes.reverse
    (Event.checkout branch :: Event.reset onto :: es, r)

/-- The per-link preamble of the `executeRebase` loop in `bin/cli/index.js`:
`createBackup(item.branch)` (event only when it returns a ref), best-effort
checkout of the target, best-effort fast-forward pull of the target. -/
def linkPreamble (g : RunOracle) (item : PR) : List Event :=
  (match g.backupRef item.branch with
    | some ref => [Event.backup item.branch ref]
    | none => []) ++
  [Event.checkout item.target, Event.pull item.target]

/-- The `for (const item of chain)` loop of `executeRebase`:
per link, run the preamble, then `rebaseBranch`; a `process.exit` inside the
replay kills the run (the exit code is returned, nothing further happens); a
thrown error is caught and breaks the loop; on a normal return the branch is
force-pushed — a push failure is also caught and breaks — and `successCount`
is incremented.  Result: (event trace, successCount, exit code if the process
died inside the loop). -/
def executeRebaseLoop (g : RunOracle) : List PR → List Event × Nat × Option Nat
  | [] => ([], 0, none)
  | item :: rest =>
    let pre := linkPreamble g item
    let (res, r) := rebaseBranch g item.branch item.target
    match r with
    | RebaseResult.exited c => (pre ++ res, 0, some c)
    | RebaseResult.threw => (pre ++ res, 0, none)
    | RebaseResult.returned _ =>
      if g.pushOk item.branch then
        let (es, cnt, ex) := executeRebaseLoop g rest
        (pre ++ res ++ [Event.push item.branch] ++ es, cnt + 1, ex)
      else
        (pre ++ res, 0, none)

/-- Function `executeRebase(chain, options)` from `bin/cli/index.js`: confirmation
gate (absent `--yes`, a declined prompt exits 0 with no side effect), fetch
from origin, the per-link loop, then — unless the process already exited —
a best-effort checkout back to the original branch and `process.exit(1)`
when fewer than all links succeeded. -/
def executeRebase (g : RunOracle) (chain : List PR) (originalBranch : String)
    (skipConfirmation confirmed : Bool) : List Event × Nat × Option Nat :=
  if !skipConfirmation && !confirmed then
    ([], 0, some 0)
  else
    let (es, cnt, ex) := executeRebaseLoop g chain
    match ex with
    | some c => (Event.fetchOrigin :: es, cnt, some c)
    | none =>
      (Event.fetchOrigin :: es ++ [Event.checkout originalBranch], cnt,
        if cnt < chain.length then some 1 else none)

/-- Result of one `main` invocation: the git side effects, the final
`successCount`, the `process.exit` code (`none` = fell through normally),
and whether the protected-starting-branch warning was printed. -/
structure MainResult where
  events : List Event
  succeeded : Nat
  exitCode : Option Nat
  startWarned : Bool
deriving DecidableEq, Repr

/-- Function `main` from `bin/cli/index.js`, from branch determination onward
(environment validation, `--help`/`--version` and host detection elided):
sanitize the starting branch (exit 1 on failure), warn — only — when it is
protected, discover the chain, exit 0 when the chain is empty, exit 1 when
any `.branch` of the chain is protected (`validateChain`), exit 0 on
`--dry-run`, else run `executeRebase`. -/
def runMain (g : RunOracle) (graph : List RawPR)
    (startInput originalBranch : String)
    (dryRun skipConfirmation confirmed : Bool) : MainResult :=
  match sanitizeBranchName startInput with
  | Except.error _ => ⟨[], 0, some 1, false⟩
  | Except.ok startBranch =>
    let warned := isProtectedBranch startBranch
    let chain := discoverChain graph startBranch
    if chain.length == 0 then ⟨[], 0, some 0, warned⟩
    else if 0 < ((getBranchesInChain chain).filter isProtectedBranch).length
    then ⟨[], 0, some 1, warned⟩
    else if dryRun then ⟨[], 0, some 0, warned⟩
    else
      let (es, cnt, ex) :=
        executeRebase g chain originalBranch skipConfirmation confirmed
      ⟨es, cnt, ex, warned⟩

/-! ## Derived notions used to state the claims -/

/-- The chain-shape invariant of §3 of the spec: the first link targets
`start` and each later link targets the previous link's head branch. -/
def chainLinked : String → List PR → Prop
  | _, [] => True
  | t, pr :: rest => pr.target = t ∧ chainLinked pr.branch rest

/-- The hashes of the cherry-pick attempts in a trace, in order. -/
def attemptedHashes (es : List Event) : List String :=
  es.filterMap (fun e =>
    match e with
    | Event.applyAttempt h => some h
    | _ => none)

/-- Commit `h` does not produce a genuine conflict: its apply either succeeds
or fails without conflict markers. -/
def commitClean (applyResult : String → Option String) (h : String) : Bool :=
  match applyResult h with
  | none => true
  | some status => !hasConflict status

/-- The trace `replayCommits` produces when no commit conflicts: one apply
attempt per commit, followed by a skip when the attempt failed empty. -/
def cleanReplayEvents (applyResult : String → Option String) :
    List String → List Event
  | [] => []
  | h :: rest =>
    match applyResult h with
    | none => Event.applyAttempt h :: cleanReplayEvents applyResult rest
    | some _ =>
      Event.applyAttempt h :: Event.skipCommit h ::
        cleanReplayEvents applyResult rest

/-- Sufficient condition for a chain link to be processed completely by the
loop: all its own commits are conflict-free and checkout, reset and push
succeed. -/
def linkCompletes (g : RunOracle) (item : PR) : Bool :=
  (g.ownCommits item.branch item.target).all (commitClean g.applyResult) &&
  g.checkoutOk item.branch && g.resetOk item.target && g.pushOk item.branch

/-- The trace of a run of the loop over links that all complete. -/
def completedEvents (g : RunOracle) : List PR → List Event
  | [] => []
  | item :: rest =>
    linkPreamble g item ++ (rebaseBranch g item.branch item.target).1 ++
      [Event.push item.branch] ++ completedEvents g rest

/-- The distinct base branches occurring in the repository's open PRs: the
only cursor values at which discovery can find a successor. -/
def lookupTargets (graph : List RawPR) : List String :=
  (graph.map (fun pr => pr.baseRefName)).dedup

/-- How many possible cursor values the traversal has not yet visited; the
termination measure of the discovery loop. -/
def remainingTargets (graph : List RawPR) (visited : List String) : Nat :=
  ((lookupTargets graph).filter (fun t => !visited.contains t)).length

/-! ## Concrete repositories and oracles used as witnesses -/

/-- Cycle `A→B→A`: PR #1's head `B` targets `A`, PR #2's head `A` targets
`B`. -/
def cycleGraph : List RawPR := [⟨1, "B", "A", "t1"⟩, ⟨2, "A", "B", "t2"⟩]

/-- PR #2 is a self-loop (head `B` targeting `B`), reached after PR #1's head
`B`. -/
def selfLoopGraph : List RawPR := [⟨1, "B", "A", "t1"⟩, ⟨2, "B", "B", "t2"⟩]

/-- A two-link stack: `feature-a` targets `base`, `feature-b` targets
`feature-a`. -/
def stackGraph : List RawPR :=
  [⟨1, "feature-a", "base", "t1"⟩, ⟨2, "feature-b", "feature-a", "t2"⟩]

/-- A PR whose head branch is protected (`develop`) targeting `feature-x`. -/
def protectedChainGraph : List RawPR := [⟨1, "develop", "feature-x", "t"⟩]

/-- A PR targeting the protected branch `main` (legal: protected branches may
be read from). -/
def fromMainGraph : List RawPR := [⟨1, "feat-a", "main", "t"⟩]

/-- A PR whose head name does not pass validation. -/
def badHeadGraph : List RawPR := [⟨7, "evil name", "start", "t"⟩]

/-- A collaborator answering every base query with one valid and one invalid
head name. -/
def ghMixedHeads : String → Option (List RawPR) :=
  fun _ => some [⟨1, "good-branch", "s", "t"⟩, ⟨2, "bad head", "s", "t"⟩]

/-- Oracle of a repository where every branch is already converged (no own
commits anywhere) and every git primitive succeeds. -/
def gNoCommits : RunOracle :=
  { ownCommits := fun _ _ => []
    applyResult := fun _ => none
    checkoutOk := fun _ => true
    resetOk := fun _ => true
    backupRef := fun b => some ("refs/backup/" ++ b)
    pushOk := fun _ => true }

/-- Oracle of a repository where branch `b1` has the clean commit `a1`,
branch `b2` has `c1` (clean), `c2` (apply fails with conflict markers) and
`c3`, and branch `b4` has `d1` (apply fails empty, no conflict) and `d2`
(clean); `ownCommits` lists hashes newest first as `git log` does. -/
def gMixed : RunOracle :=
  { ownCommits := fun b _ =>
      if b = "b2" then ["c3", "c2", "c1"]
      else if b = "b1" then ["a1"]
      else if b = "b4" then ["d2", "d1"]
      else []
    applyResult := fun h =>
      if h = "c2" then some "UU f"
      else if h = "d1" then some " M f"
      else none
    checkoutOk := fun _ => true
    resetOk := fun _ => true
    backupRef := fun b => some ("refs/backup/" ++ b)
    pushOk := fun _ => true }

/-! ## Validation layer: characterization of `sanitizeBranchName` -/

/-- The spec's wording of one allowed character: "letters, digits, `/`, `_`,
`.`, `-` only" (drawn from the claim, to be compared with the embedded
`isValidChar`). -/
def specCharOK (c : Char) : Prop :=
  ('a' ≤ c ∧ c ≤ 'z') ∨ ('A' ≤ c ∧ c ≤ 'Z') ∨ ('0' ≤ c ∧ c ≤ '9') ∨
    c = '/' ∨ c = '_' ∨ c = '.' ∨ c = '-'

theorem isValidChar_iff (c : Char) : isValidChar c = true ↔ specCharOK c := by
  simp only [isValidChar, specCharOK, Bool.or_eq_true, Bool.and_eq_true,
    decide_eq_true_eq, beq_iff_eq]
  tauto

theorem toList_eq_nil_iff (s : String) : s.toList = [] ↔ s = "" := by
  constructor
  · intro h
    exact String.ext h
  · intro h
    subst h
    rfl

/-- Boolean `hasInfix` decides substring occurrence. -/
theorem hasInfix_iff (sub l : List Char) :
    hasInfix sub l = true ↔ ∃ a b, l = a ++ sub ++ b := by
  induction l with
  | nil =>
    simp only [hasInfix, List.isEmpty_iff]
    constructor
    · rintro rfl
      exact ⟨[], [], rfl⟩
    · rintro ⟨a, b, h⟩
      rcases List.append_eq_nil.mp h.symm with ⟨h1, h2⟩
      exact (List.append_eq_nil.mp h1).2
  | cons c rest ih =>
    simp only [hasInfix, Bool.or_eq_true, ih, List.isPrefixOf_iff_prefix]
    constructor
    · rintro (⟨t, ht⟩ | ⟨a, b, rfl⟩)
      · exact ⟨[], t, ht.symm⟩
      · exact ⟨c :: a, b, rfl⟩
    · rintro ⟨a, b, h⟩
      cases a with
      | nil =>
        exact Or.inl ⟨b, by simpa using h.symm⟩
      | cons a0 a2 =>
        rw [List.cons_append, List.cons_append] at h
        injection h with h1 h2
        exact Or.inr ⟨a2, b, by simpa using h2⟩

/-- Successful validation never rewrites the name. -/
theorem sanitize_ok_eq {s t : String}
    (h : sanitizeBranchName s = Except.ok t) : t = s := by
  unfold sanitizeBranchName at h
  rcases Bool.eq_false_or_eq_true
      (decide (0 < s.toList.length) && s.toList.all isValidChar) with hc | hc
  · rw [if_neg (by rw [hc]; decide)] at h
    rcases Bool.eq_false_or_eq_true
        (hasInfix ['.', '.'] s.toList || ['-'].isPrefixOf s.toList) with hd | hd
    · rw [if_pos hd] at h
      cases h
    · rw [if_neg (by rw [hd]; decide)] at h
      cases h
      rfl
  · rw [if_pos (by simp only [hc, Bool.not_false])] at h
    cases h

/-- The first guard of `sanitizeBranchName` holds iff the name is nonempty
and made of allowed characters. -/
theorem sanitize_pattern_iff (s : String) :
    (decide (0 < s.toList.length) && s.toList.all isValidChar) = true ↔
      (s ≠ "" ∧ ∀ c ∈ s.toList, specCharOK c) := by
  rw [Bool.and_eq_true, decide_eq_true_eq, List.all_eq_true]
  constructor
  · rintro ⟨h1, h2⟩
    refine ⟨?_, fun c hc => (isValidChar_iff c).mp (h2 c hc)⟩
    intro hs
    rw [(toList_eq_nil_iff s).mpr hs] at h1
    exact absurd h1 (by decide)
  · rintro ⟨h1, h2⟩
    refine ⟨?_, fun c hc => (isValidChar_iff c).mpr (h2 c hc)⟩
    exact List.length_pos.mpr (fun h => h1 ((toList_eq_nil_iff s).mp h))

/-- The second guard of `sanitizeBranchName` holds iff the name contains
`..` or starts with `-`. -/
theorem sanitize_unsafe_iff (s : String) :
    (hasInfix ['.', '.'] s.toList || ['-'].isPrefixOf s.toList) = true ↔
      ((∃ a b, s.toList = a ++ '.' :: '.' :: b) ∨ ∃ l, s.toList = '-' :: l) := by
  rw [Bool.or_eq_true, hasInfix_iff, List.isPrefixOf_iff_prefix]
  constructor
  · rintro (⟨a, b, h⟩ | ⟨t, ht⟩)
    · exact Or.inl ⟨a, b, by simpa using h⟩
    · exact Or.inr ⟨t, by simpa using ht.symm⟩
  · rintro (⟨a, b, h⟩ | ⟨l, hl⟩)
    · exact Or.inl ⟨a, b, by simpa using h⟩
    · exact Or.inr ⟨l, by simpa using hl.symm⟩

/-- Full characterization of validation success. -/
theorem sanitize_ok_iff (s : String) :
    sanitizeBranchName s = Except.ok s ↔
      (s ≠ "" ∧ (∀ c ∈ s.toList, specCharOK c) ∧
        (¬ ∃ l, s.toList = '-' :: l) ∧
        ¬ ∃ a b, s.toList = a ++ '.' :: '.' :: b) := by
  unfold sanitizeBranchName
  rcases Bool.eq_false_or_eq_true
      (decide (0 < s.toList.length) && s.toList.all isValidChar) with hc | hc
  · rw [if_neg (by rw [hc]; decide)]
    rcases Bool.eq_false_or_eq_true
        (hasInfix ['.', '.'] s.toList || ['-'].isPrefixOf s.toList) with hd | hd
    · rw [if_pos hd]
      constructor
      · intro h
        cases h
      · rintro ⟨h1, h2, h3, h4⟩
        rcases (sanitize_unsafe_iff s).mp hd with h | h
        · exact absurd h h4
        · exact absurd h h3
    · rw [if_neg (by rw [hd]; decide)]
      constructor
      · intro _
        obtain ⟨h1, h2⟩ := (sanitize_pattern_iff s).mp hc
        refine ⟨h1, h2, fun h => ?_, fun h => ?_⟩
        · rw [(sanitize_unsafe_iff s).mpr (Or.inr h)] at hd
          cases hd
        · rw [(sanitize_unsafe_iff s).mpr (Or.inl h)] at hd
          cases hd
      · intro _
        rfl
  · rw [if_pos (by simp only [hc, Bool.not_false])]
    constructor
    · intro h
      cases h
    · rintro ⟨h1, h2, h3, h4⟩
      rw [(sanitize_pattern_iff s).mpr ⟨h1, h2⟩] at hc
      cases hc

/-! ## Discovery layer: chain shape, acyclicity, termination -/

/-- Every link built by the `.map` inside `findPRsTargeting` records the
queried base branch as its target. -/
theorem mapPRs_target {base : String} :
    ∀ {raws : List RawPR} {prs : List PR}, mapPRs base raws = Except.ok prs →
      ∀ pr ∈ prs, pr.target = base := by
  intro raws
  induction raws with
  | nil =>
    intro prs h pr hpr
    cases h
    cases hpr
  | cons r rest ih =>
    intro prs h pr hpr
    cases hs : sanitizeBranchName r.headRefName with
    | error e =>
      simp only [mapPRs, hs] at h
      cases h
    | ok b =>
      cases hrest : mapPRs base rest with
      | error e =>
        simp only [mapPRs, hs, hrest] at h
        cases h
      | ok prs2 =>
        simp only [mapPRs, hs, hrest] at h
        cases h
        cases hpr with
        | head => rfl
        | tail _ hpr2 => exact ih hrest pr hpr2

/-- Every PR returned by `findPRsTargeting` targets the queried base. -/
theorem findPRsTargeting_target (ghList : String → Option (List RawPR))
    (base : String) (pr : PR) (h : pr ∈ findPRsTargeting ghList base) :
    pr.target = base := by
  unfold findPRsTargeting at h
  cases hs : sanitizeBranchName base with
  | error e =>
    simp only [hs] at h
    cases h
  | ok safe =>
    simp only [hs] at h
    cases hg : ghList safe with
    | none =>
      simp only [hg] at h
      cases h
    | some raws =>
      simp only [hg] at h
      cases hm : mapPRs base raws with
      | error e =>
        simp only [hm] at h
        cases h
      | ok prs =>
        simp only [hm] at h
        exact mapPRs_target hm pr h

/-- The chain built by the traversal loop is linked: each link targets the
cursor position at which it was discovered. -/
theorem buildPRChainAux_linked (lookup : String → List PR)
    (hl : ∀ b pr, pr ∈ lookup b → pr.target = b) :
    ∀ fuel visited current,
      chainLinked current (buildPRChainAux lookup fuel visited current) := by
  intro fuel
  induction fuel with
  | zero =>
    intro visited current
    exact trivial
  | succ fuel ih =>
    intro visited current
    unfold buildPRChainAux
    by_cases hv : visited.contains current = true
    · rw [if_pos hv]
      exact trivial
    · rw [if_neg hv]
      cases hlk : lookup current with
      | nil => exact trivial
      | cons pr tl =>
        exact ⟨hl current pr (by rw [hlk]; exact List.mem_cons_self pr tl),
          ih (current :: visited) pr.branch⟩

/-- The targets of the links built by the loop are pairwise distinct and
disjoint from the visited set: a link is only appended while its target (the
cursor) was not yet visited, and the cursor is added to the visited set at
that moment. -/
theorem buildPRChainAux_targets_nodup (lookup : String → List PR) :
    ∀ fuel visited current,
      (∀ b pr, pr ∈ lookup b → pr.target = b) →
      ((buildPRChainAux lookup fuel visited current).map
          (fun pr => pr.target)).Nodup ∧
        ∀ t ∈ (buildPRChainAux lookup fuel visited current).map
          (fun pr => pr.target), ¬ t ∈ visited := by
  intro fuel
  induction fuel with
  | zero =>
    intro visited current hl
    exact ⟨List.nodup_nil, by simp [buildPRChainAux]⟩
  | succ fuel ih =>
    intro visited current hl
    unfold buildPRChainAux
    by_cases hv : visited.contains current = true
    · rw [if_pos hv]
      exact ⟨List.nodup_nil, by simp⟩
    · rw [if_neg hv]
      cases hlk : lookup current with
      | nil => exact ⟨List.nodup_nil, by simp⟩
      | cons pr tl =>
        have hpr : pr.target = current :=
          hl current pr (by rw [hlk]; exact List.mem_cons_self pr tl)
        obtain ⟨ihn, ihv⟩ := ih (current :: visited) pr.branch hl
        have hcur : ¬ current ∈ visited := fun hm => hv (List.elem_iff.mpr hm)
        constructor
        · rw [List.map_cons, List.nodup_cons, hpr]
          exact ⟨fun hmem => (ihv current hmem)
            (List.mem_cons_self current visited), ihn⟩
        · intro t ht
          rw [List.map_cons] at ht
          rcases List.mem_cons.mp ht with rfl | ht2
          · rw [hpr]
            exact hcur
          · exact fun hm => ihv t ht2 (List.mem_cons_of_mem current hm)

/-! ## Replay layer: clean replay, conflict truncation, loop behaviour -/

/-- A conflict-free commit list replays in full and returns `true`. -/
theorem replayCommits_clean (f : String → Option String) :
    ∀ l, (∀ c ∈ l, commitClean f c = true) →
      replayCommits f l = (cleanReplayEvents f l, RebaseResult.returned true) := by
  intro l
  induction l with
  | nil =>
    intro _
    rfl
  | cons h rest ih =>
    intro hclean
    have hh := hclean h (List.mem_cons_self h rest)
    have hrest := ih fun c hc => hclean c (List.mem_cons_of_mem h hc)
    cases ha : f h with
    | none =>
      simp only [replayCommits, cleanReplayEvents, ha, hrest]
    | some st =>
      have hcf : hasConflict st = false := by
        unfold commitClean at hh
        rw [ha] at hh
        simpa using hh
      simp only [replayCommits, cleanReplayEvents, ha, hrest]
      rw [if_neg (by rw [hcf]; decide)]

theorem attemptedHashes_cons_apply (h : String) (es : List Event) :
    attemptedHashes (Event.applyAttempt h :: es) = h :: attemptedHashes es :=
  rfl

theorem attemptedHashes_cons_skip (h : String) (es : List Event) :
    attemptedHashes (Event.skipCommit h :: es) = attemptedHashes es :=
  rfl

theorem attemptedHashes_cons_checkout (b : String) (es : List Event) :
    attemptedHashes (Event.checkout b :: es) = attemptedHashes es :=
  rfl

theorem attemptedHashes_cons_reset (b : String) (es : List Event) :
    attemptedHashes (Event.reset b :: es) = attemptedHashes es :=
  rfl

/-- The clean replay attempts exactly the given commits, in order. -/
theorem attemptedHashes_cleanReplay (f : String → Option String) :
    ∀ l, attemptedHashes (cleanReplayEvents f l) = l := by
  intro l
  induction l with
  | nil => rfl
  | cons h rest ih =>
    cases ha : f h with
    | none =>
      simp only [cleanReplayEvents, ha, attemptedHashes_cons_apply, ih]
    | some st =>
      simp only [cleanReplayEvents, ha, attemptedHashes_cons_apply,
        attemptedHashes_cons_skip, ih]

/-- A genuine conflict stops the replay at the conflicting commit: the trace
ends with that commit's apply attempt and the process exits with code 1. -/
theorem replayCommits_conflict (f : String → Option String) :
    ∀ good c rest st, (∀ x ∈ good, commitClean f x = true) →
      f c = some st → hasConflict st = true →
      replayCommits f (good ++ c :: rest) =
        (cleanReplayEvents f good ++ [Event.applyAttempt c],
          RebaseResult.exited 1) := by
  intro good
  induction good with
  | nil =>
    intro c rest st _ hc hconf
    simp only [List.nil_append, replayCommits, hc, cleanReplayEvents]
    rw [if_pos hconf]
  | cons x good2 ih =>
    intro c rest st hgood hc hconf
    have hx := hgood x (List.mem_cons_self x good2)
    have hrec := ih c rest st
      (fun y hy => hgood y (List.mem_cons_of_mem x hy)) hc hconf
    cases ha : f x with
    | none =>
      simp [List.cons_append, replayCommits, ha, cleanReplayEvents, hrec]
    | some st2 =>
      have hcf : hasConflict st2 = false := by
        unfold commitClean at hx
        rw [ha] at hx
        simpa using hx
      simp [List.cons_append, replayCommits, ha, cleanReplayEvents, hrec, hcf]

/-- Running `rebaseBranch` with an empty own-commit list: immediate success, no
event. -/
theorem rebaseBranch_noCommits (g : RunOracle) (branch onto : String)
    (h : g.ownCommits branch onto = []) :
    rebaseBranch g branch onto = ([], RebaseResult.returned true) := by
  unfold rebaseBranch
  rw [if_pos (by rw [h]; decide)]

/-- Running `rebaseBranch` on a nonempty, conflict-free commit list: checkout, reset,
then the clean replay of the reversed (oldest-first) commits. -/
theorem rebaseBranch_clean (g : RunOracle) (branch onto : String)
    (hne : g.ownCommits branch onto ≠ [])
    (hck : g.checkoutOk branch = true) (hrs : g.resetOk onto = true)
    (hclean : ∀ c ∈ g.ownCommits branch onto,
      commitClean g.applyResult c = true) :
    rebaseBranch g branch onto =
      (Event.checkout branch :: Event.reset onto ::
        cleanReplayEvents g.applyResult (g.ownCommits branch onto).reverse,
        RebaseResult.returned true) := by
  unfold rebaseBranch
  rw [if_neg (by simp [beq_iff_eq, List.length_eq_zero, hne]),
    if_neg (by rw [hck]; decide), if_neg (by rw [hrs]; decide),
    replayCommits_clean g.applyResult _
      (fun c hc => hclean c (List.mem_reverse.mp hc))]

/-- Running `rebaseBranch` on a commit list whose oldest-first order is
`good ++ c :: rest` with `good` conflict-free and `c` conflicting: checkout,
reset, the clean replay of `good`, the attempt of `c`, then `process.exit 1`
— nothing for `rest`. -/
theorem rebaseBranch_conflict (g : RunOracle) (branch onto : String)
    (good rest : List String) (c st : String)
    (hck : g.checkoutOk branch = true) (hrs : g.resetOk onto = true)
    (hsplit : (g.ownCommits branch onto).reverse = good ++ c :: rest)
    (hgood : ∀ x ∈ good, commitClean g.applyResult x = true)
    (happ : g.applyResult c = some st) (hconf : hasConflict st = true) :
    rebaseBranch g branch onto =
      (Event.checkout branch :: Event.reset onto ::
        (cleanReplayEvents g.applyResult good ++ [Event.applyAttempt c]),
        RebaseResult.exited 1) := by
  have hne : g.ownCommits branch onto ≠ [] := by
    intro h0
    rw [h0] at hsplit
    simp at hsplit
  unfold rebaseBranch
  rw [if_neg (by simp [beq_iff_eq, List.length_eq_zero, hne]),
    if_neg (by rw [hck]; decide), if_neg (by rw [hrs]; decide), hsplit,
    replayCommits_conflict g.applyResult good c rest st hgood happ hconf]

/-- Under `linkCompletes`, the replay of a link returns normally. -/
theorem rebaseBranch_completes (g : RunOracle) (branch onto : String)
    (hclean : ∀ c ∈ g.ownCommits branch onto,
      commitClean g.applyResult c = true)
    (hck : g.checkoutOk branch = true) (hrs : g.resetOk onto = true) :
    (rebaseBranch g branch onto).2 = RebaseResult.returned true := by
  by_cases h0 : g.ownCommits branch onto = []
  · rw [rebaseBranch_noCommits g branch onto h0]
  · rw [rebaseBranch_clean g branch onto h0 hck hrs hclean]

/-- One loop step over a link whose replay returns normally and whose push
succeeds. -/
theorem executeRebaseLoop_cons_returned (g : RunOracle) (item : PR)
    (rest : List PR) (res : List Event) (v : Bool)
    (hrb : rebaseBranch g item.branch item.target =
      (res, RebaseResult.returned v))
    (hpush : g.pushOk item.branch = true) :
    executeRebaseLoop g (item :: rest) =
      (linkPreamble g item ++ res ++ [Event.push item.branch] ++
          (executeRebaseLoop g rest).1,
        (executeRebaseLoop g rest).2.1 + 1,
        (executeRebaseLoop g rest).2.2) := by
  cases hrest : executeRebaseLoop g rest with
  | mk es rest2 =>
    cases rest2 with
    | mk cnt ex =>
      simp [executeRebaseLoop, hrb, hpush, hrest, List.append_assoc]

/-- Links that complete pass straight through the orchestrator loop:
their events accumulate, each contributes one success, and the rest of the
chain is processed afterwards. -/
theorem executeRebaseLoop_completed (g : RunOracle) :
    ∀ pre rest, (∀ item ∈ pre, linkCompletes g item = true) →
      executeRebaseLoop g (pre ++ rest) =
        (completedEvents g pre ++ (executeRebaseLoop g rest).1,
          pre.length + (executeRebaseLoop g rest).2.1,
          (executeRebaseLoop g rest).2.2) := by
  intro pre
  induction pre with
  | nil =>
    intro rest _
    simp [completedEvents]
  | cons item pre2 ih =>
    intro rest hall
    have hitem := hall item (List.mem_cons_self item pre2)
    unfold linkCompletes at hitem
    simp only [Bool.and_eq_true, List.all_eq_true] at hitem
    obtain ⟨⟨⟨hclean, hck⟩, hrs⟩, hpush⟩ := hitem
    have hret := rebaseBranch_completes g item.branch item.target hclean hck hrs
    have hrec := ih rest fun l hl => hall l (List.mem_cons_of_mem item hl)
    cases hrb : rebaseBranch g item.branch item.target with
    | mk res r =>
      have hr : r = RebaseResult.returned true := by
        rw [hrb] at hret
        exact hret
      subst hr
      rw [List.cons_append,
        executeRebaseLoop_cons_returned g item (pre2 ++ rest) res true hrb
          hpush, hrec]
      simp only [completedEvents, hrb, Prod.mk.injEq, List.length_cons]
      refine ⟨by simp [List.append_assoc], by omega, trivial⟩

/-- One loop step over a link with no own commits: push and count, then
continue. -/
theorem executeRebaseLoop_skip_head (g : RunOracle) (item : PR)
    (rest : List PR)
    (hempty : g.ownCommits item.branch item.target = [])
    (hpush : g.pushOk item.branch = true) :
    executeRebaseLoop g (item :: rest) =
      (linkPreamble g item ++ [Event.push item.branch] ++
          (executeRebaseLoop g rest).1,
        (executeRebaseLoop g rest).2.1 + 1,
        (executeRebaseLoop g rest).2.2) := by
  rw [executeRebaseLoop_cons_returned g item rest [] true
    (rebaseBranch_noCommits g item.branch item.target hempty) hpush]
  simp

/-- One loop step over a link whose replay exits the process: the loop (and
the run) produce nothing beyond that link's events. -/
theorem executeRebaseLoop_exit_head (g : RunOracle) (item : PR)
    (rest : List PR) (res : List Event) (code : Nat)
    (hrb : rebaseBranch g item.branch item.target =
      (res, RebaseResult.exited code)) :
    executeRebaseLoop g (item :: rest) =
      (linkPreamble g item ++ res, 0, some code) := by
  simp only [executeRebaseLoop, hrb]

/-! ## Termination of discovery, index form of the chain invariant -/

/-- A filter by a strictly weaker predicate is strictly shorter when some
element separates the predicates. -/
theorem filter_length_lt {α : Type} (l : List α) (p q : α → Bool)
    (hpq : ∀ x, q x = true → p x = true) (x : α) (hx : x ∈ l)
    (hpx : p x = true) (hqx : q x = false) :
    (l.filter q).length < (l.filter p).length := by
  have hsub : (l.filter q).Sublist (l.filter p) :=
    List.monotone_filter_right l hpq
  rcases Nat.lt_or_ge (l.filter q).length (l.filter p).length with h | h
  · exact h
  · exfalso
    have heq : l.filter q = l.filter p :=
      hsub.eq_of_length (Nat.le_antisymm hsub.length_le h)
    have hmem : x ∈ l.filter q := heq ▸ List.mem_filter.mpr ⟨hx, hpx⟩
    have := (List.mem_filter.mp hmem).2
    rw [hqx] at this
    cases this

/-- A nonempty lookup answer means the cursor is one of the graph's PR
bases. -/
theorem findPRsTargeting_nonempty_mem (graph : List RawPR) (b : String)
    (h : findPRsTargeting (ghLookup graph) b ≠ []) :
    b ∈ lookupTargets graph := by
  unfold findPRsTargeting at h
  cases hs : sanitizeBranchName b with
  | error e =>
    simp only [hs] at h
    exact absurd rfl h
  | ok safe =>
    have hsafe : safe = b := sanitize_ok_eq hs
    subst hsafe
    simp only [hs, ghLookup] at h
    cases hm : mapPRs safe (graph.filter fun pr => pr.baseRefName == safe) with
    | error e =>
      simp only [hm] at h
      exact absurd rfl h
    | ok prs =>
      simp only [hm] at h
      have hraws : graph.filter (fun pr => pr.baseRefName == safe) ≠ [] := by
        intro hf
        rw [hf] at hm
        simp only [mapPRs] at hm
        cases hm
        exact h rfl
      obtain ⟨r, hr⟩ := List.exists_mem_of_ne_nil _ hraws
      rw [lookupTargets, List.mem_dedup]
      exact List.mem_map.mpr
        ⟨r, (List.mem_filter.mp hr).1, beq_iff_eq.mp (List.mem_filter.mp hr).2⟩

/-- Once the fuel exceeds the number of unvisited cursor candidates, adding
more fuel cannot change the traversal's output: the loop of `buildPRChain`
halts. -/
theorem buildPRChainAux_fuel_stable (graph : List RawPR) :
    ∀ fuel1 fuel2 visited current,
      remainingTargets graph visited < fuel1 →
      remainingTargets graph visited < fuel2 →
      buildPRChainAux (findPRsTargeting (ghLookup graph)) fuel1 visited
          current
        = buildPRChainAux (findPRsTargeting (ghLookup graph)) fuel2 visited
            current := by
  intro fuel1
  induction fuel1 with
  | zero =>
    intro fuel2 visited current h1 h2
    exact absurd h1 (Nat.not_lt_zero _)
  | succ f1 ih =>
    intro fuel2 visited current h1 h2
    cases fuel2 with
    | zero => exact absurd h2 (Nat.not_lt_zero _)
    | succ f2 =>
      unfold buildPRChainAux
      by_cases hv : visited.contains current = true
      · rw [if_pos hv, if_pos hv]
      · rw [if_neg hv, if_neg hv]
        cases hlk : findPRsTargeting (ghLookup graph) current with
        | nil => rfl
        | cons pr tl =>
          have hmem : current ∈ lookupTargets graph :=
            findPRsTargeting_nonempty_mem graph current
              (by rw [hlk]; exact List.cons_ne_nil pr tl)
          have hdec : remainingTargets graph (current :: visited) <
              remainingTargets graph visited := by
            apply filter_length_lt (lookupTargets graph) _ _ ?hmono current
              hmem ?hp ?hq
            case hmono =>
              intro t ht
              rcases Bool.eq_false_or_eq_true (visited.contains t) with h | h
              · exfalso
                have hmt : t ∈ visited := List.elem_iff.mp h
                have hmt2 : t ∈ current :: visited :=
                  List.mem_cons_of_mem _ hmt
                have hco : (current :: visited).contains t = true :=
                  List.elem_iff.mpr hmt2
                rw [hco] at ht
                cases ht
              · rw [h]
                rfl
            case hp =>
              rcases Bool.eq_false_or_eq_true (visited.contains current)
                with h | h
              · exact absurd h hv
              · rw [h]
                rfl
            case hq =>
              have hco : (current :: visited).contains current = true :=
                List.elem_iff.mpr (List.mem_cons_self current visited)
              rw [hco]
              rfl
          have h1a : remainingTargets graph (current :: visited) < f1 :=
            Nat.lt_of_lt_of_le hdec (Nat.lt_succ_iff.mp h1)
          have h2a : remainingTargets graph (current :: visited) < f2 :=
            Nat.lt_of_lt_of_le hdec (Nat.lt_succ_iff.mp h2)
          exact congrArg (pr :: ·) (ih f2 (current :: visited) pr.branch h1a h2a)

/-- The termination measure is bounded by the size of the PR graph. -/
theorem remainingTargets_le (graph : List RawPR) (visited : List String) :
    remainingTargets graph visited ≤ graph.length := by
  calc ((lookupTargets graph).filter fun t => !visited.contains t).length
      ≤ (lookupTargets graph).length := (List.filter_sublist _).length_le
    _ ≤ (graph.map fun pr => pr.baseRefName).length :=
        (List.dedup_sublist _).length_le
    _ = graph.length := List.length_map _ _

/-- Index form of `chainLinked`: first link targets the start, and each later
link targets the previous link's head. -/
theorem chainLinked_getD (d : PR) :
    ∀ (l : List PR) (t : String), chainLinked t l →
      (0 < l.length → (l.getD 0 d).target = t) ∧
      ∀ i, i + 1 < l.length →
        (l.getD (i + 1) d).target = (l.getD i d).branch := by
  intro l
  induction l with
  | nil =>
    intro t _
    exact ⟨fun h0 => absurd h0 (by simp), fun i hi => absurd hi (by simp)⟩
  | cons pr rest ih =>
    intro t h
    obtain ⟨ht, hrest⟩ := h
    obtain ⟨ih1, ih2⟩ := ih pr.branch hrest
    constructor
    · intro _
      simpa using ht
    · intro i hi
      cases i with
      | zero =>
        have h0 : 0 < rest.length := by simpa using hi
        simpa using ih1 h0
      | succ j =>
        have hj : j + 1 < rest.length := by simpa using hi
        simpa using ih2 j hj

/-- In a linked chain the target list is the start followed by all head
branches but the last. -/
theorem chainLinked_targets_eq :
    ∀ (l : List PR) (t : String), chainLinked t l →
      l.map (fun pr => pr.target)
        = (t :: l.map fun pr => pr.branch).dropLast := by
  intro l
  induction l with
  | nil =>
    intro t _
    simp
  | cons pr rest ih =>
    intro t h
    obtain ⟨ht, hrest⟩ := h
    rw [List.map_cons, List.map_cons, List.dropLast_cons₂,
      ih pr.branch hrest, ht]

/-- If any raw head name fails validation, the whole `.map` throws. -/
theorem mapPRs_error (base : String) :
    ∀ {raws : List RawPR},
      (∃ r ∈ raws, ∃ e, sanitizeBranchName r.headRefName = Except.error e) →
      ∃ e2, mapPRs base raws = Except.error e2 := by
  intro raws
  induction raws with
  | nil =>
    rintro ⟨r, hr, _⟩
    cases hr
  | cons r rest ih =>
    rintro ⟨r0, hr0, e, he⟩
    cases hr0 with
    | head =>
      exact ⟨e, by simp [mapPRs, he]⟩
    | tail _ hr2 =>
      cases hs : sanitizeBranchName r.headRefName with
      | error e2 =>
        exact ⟨e2, by simp [mapPRs, hs]⟩
      | ok b =>
        obtain ⟨e2, herr⟩ := ih ⟨r0, hr2, e, he⟩
        exact ⟨e2, by simp [mapPRs, hs, herr]⟩

/-- Every head branch that reaches a chain link went through validation and
was kept verbatim. -/
theorem mapPRs_branch_sanitized {base : String} :
    ∀ {raws : List RawPR} {prs : List PR}, mapPRs base raws = Except.ok prs →
      ∀ pr ∈ prs, sanitizeBranchName pr.branch = Except.ok pr.branch := by
  intro raws
  induction raws with
  | nil =>
    intro prs h pr hpr
    cases h
    cases hpr
  | cons r rest ih =>
    intro prs h pr hpr
    cases hs : sanitizeBranchName r.headRefName with
    | error e =>
      simp only [mapPRs, hs] at h
      cases h
    | ok b =>
      cases hrest : mapPRs base rest with
      | error e =>
        simp only [mapPRs, hs, hrest] at h
        cases h
      | ok prs2 =>
        simp only [mapPRs, hs, hrest] at h
        cases h
        cases hpr with
        | head =>
          have hb : b = r.headRefName := sanitize_ok_eq hs
          subst hb
          exact hs
        | tail _ hpr2 => exact ih hrest pr hpr2

/-! ## Claim theorems -/

/-- Claim C3 (corrected).  Branch-name validation fails when the string
contains any character outside `[A-Za-z0-9/_.-]`, when it starts with `-` or
contains the substring `..`, **or when the string is empty** — the amendment:
the source regex `/^[a-zA-Z0-9\x2f_.-]+$/` requires at least one character,
so `""` is rejected although it contains no forbidden character, does not
start with `-` and does not contain `..`.  In every remaining case the string
is returned unchanged (no normalization, no case-folding), and a successful
validation never rewrites its input. -/
theorem sanitizeBranchName_characterization (s : String) :
    (∀ t, sanitizeBranchName s = Except.ok t → t = s)
    ∧ (sanitizeBranchName s = Except.ok s ↔
        (s ≠ "" ∧ (∀ c ∈ s.toList, specCharOK c) ∧
          (¬ ∃ l, s.toList = '-' :: l) ∧
          ¬ ∃ a b, s.toList = a ++ '.' :: '.' :: b)) :=
  ⟨fun _ h => sanitize_ok_eq h, sanitize_ok_iff s⟩

/-- Counterexample for C3.  The empty string contains no character outside
the allowed class, does not start with `-` and does not contain `..`, so the
claim as stated requires validation to return it unchanged; the code rejects
it. -/
theorem sanitizeBranchName_empty_counterexample :
    (¬ ∃ c, c ∈ ("" : String).toList ∧ ¬ specCharOK c)
    ∧ (¬ ∃ l, ("" : String).toList = '-' :: l)
    ∧ (¬ ∃ a b, ("" : String).toList = a ++ '.' :: '.' :: b)
    ∧ ∀ t, sanitizeBranchName "" ≠ Except.ok t := by
  refine ⟨?_, ?_, ?_, ?_⟩
  · rintro ⟨c, hc, _⟩
    rw [show ("" : String).toList = [] from rfl] at hc
    cases hc
  · rintro ⟨l, h⟩
    rw [show ("" : String).toList = [] from rfl] at h
    cases h
  · rintro ⟨a, b, h⟩
    rw [show ("" : String).toList = [] from rfl] at h
    cases a with
    | nil => cases h
    | cons x a2 => cases h
  · intro t h
    unfold sanitizeBranchName at h
    rw [if_pos (by decide)] at h
    cases h

/-- Witness for C3: `"feature/new-feature"` validates to itself, so by the
characterization it is nonempty, all-allowed, not dash-led and `..`-free. -/
theorem sanitizeBranchName_characterization_witness :
    ("feature/new-feature" : String) ≠ ""
    ∧ (∀ c ∈ ("feature/new-feature" : String).toList, specCharOK c)
    ∧ (¬ ∃ l, ("feature/new-feature" : String).toList = '-' :: l)
    ∧ ¬ ∃ a b,
        ("feature/new-feature" : String).toList = a ++ '.' :: '.' :: b :=
  (sanitizeBranchName_characterization "feature/new-feature").2.mp rfl

/-- Claim C5 (confirmed).  For every chain returned by discovery, the first
link's target is the starting branch and each later link's target is the
previous link's head branch. -/
theorem chain_links_connected (graph : List RawPR) (startBranch : String)
    (d : PR) :
    (0 < (discoverChain graph startBranch).length →
      ((discoverChain graph startBranch).getD 0 d).target = startBranch)
    ∧ ∀ i, i + 1 < (discoverChain graph startBranch).length →
        ((discoverChain graph startBranch).getD (i + 1) d).target
          = ((discoverChain graph startBranch).getD i d).branch :=
  chainLinked_getD d (discoverChain graph startBranch) startBranch
    (buildPRChainAux_linked (findPRsTargeting (ghLookup graph))
      (fun b pr h => findPRsTargeting_target (ghLookup graph) b pr h)
      (graph.length + 1) [] startBranch)

/-- Witness for C5 on the two-link stack `feature-a → base`,
`feature-b → feature-a`. -/
theorem chain_links_connected_witness :
    ((discoverChain stackGraph "base").getD 0 ⟨0, "", "", ""⟩).target = "base"
    ∧ ((discoverChain stackGraph "base").getD 1 ⟨0, "", "", ""⟩).target
        = ((discoverChain stackGraph "base").getD 0 ⟨0, "", "", ""⟩).branch :=
  ⟨(chain_links_connected stackGraph "base" ⟨0, "", "", ""⟩).1 (by decide),
    (chain_links_connected stackGraph "base" ⟨0, "", "", ""⟩).2 0 (by decide)⟩

/-- Claim C6 (corrected).  The amended invariant: all `.branch` values of a
discovered chain except possibly the final link's are pairwise distinct.  The
original claim — no `.branch` value ever repeats — fails because the loop
appends a link before checking its head against the visited set, so the last
link appended when the cycle guard fires may repeat an earlier head (see
`chain_branch_duplicate_counterexample`). -/
theorem chain_branches_nodup_dropLast (graph : List RawPR)
    (startBranch : String) :
    (((discoverChain graph startBranch).map fun pr =>
      pr.branch).dropLast).Nodup := by
  unfold discoverChain
  have hl : ∀ b pr, pr ∈ findPRsTargeting (ghLookup graph) b →
      pr.target = b :=
    fun b pr h => findPRsTargeting_target (ghLookup graph) b pr h
  have hlinked := buildPRChainAux_linked (findPRsTargeting (ghLookup graph))
    hl (graph.length + 1) [] startBranch
  have hnodup := (buildPRChainAux_targets_nodup
    (findPRsTargeting (ghLookup graph)) (graph.length + 1) [] startBranch
    hl).1
  rw [chainLinked_targets_eq _ startBranch hlinked] at hnodup
  cases hb : (buildPRChainAux (findPRsTargeting (ghLookup graph))
      (graph.length + 1) [] startBranch).map (fun pr => pr.branch) with
  | nil =>
    simp
  | cons b bs =>
    rw [hb, List.dropLast_cons₂] at hnodup
    exact (List.nodup_cons.mp hnodup).2

/-- Counterexample for C6.  With PR #1 `B → A` and the self-loop PR #2
`B → B`, discovery from `A` returns a chain whose `.branch` values are
`[B, B]`: a branch name appears twice. -/
theorem chain_branch_duplicate_counterexample :
    ¬ ((discoverChain selfLoopGraph "A").map fun pr => pr.branch).Nodup := by
  decide

/-- Claim C7 (confirmed).  Discovery terminates on every finite PR graph: any
fuel beyond `graph.length + 1` produces the same chain (the loop halts), and
a start branch with no open PR targeting it yields the empty chain. -/
theorem discovery_terminates (graph : List RawPR) (startBranch : String)
    (extra : Nat) :
    buildPRChainAux (findPRsTargeting (ghLookup graph))
        (graph.length + 1 + extra) [] startBranch
      = discoverChain graph startBranch
    ∧ (findPRsTargeting (ghLookup graph) startBranch = [] →
        discoverChain graph startBranch = []) := by
  constructor
  · unfold discoverChain
    apply buildPRChainAux_fuel_stable graph
    · exact Nat.lt_of_le_of_lt (remainingTargets_le graph []) (by omega)
    · exact Nat.lt_succ_of_le (remainingTargets_le graph [])
  · intro h
    unfold discoverChain buildPRChainAux
    rw [h]
    rfl

/-- Witness for C7: the cyclic repository `A→B→A` (PR heads `B` over `A` and
`A` over `B`). -/
theorem discovery_terminates_witness :
    discoverChain cycleGraph "Z" = []
    ∧ buildPRChainAux (findPRsTargeting (ghLookup cycleGraph)) 8 [] "A"
        = discoverChain cycleGraph "A" :=
  ⟨(discovery_terminates cycleGraph "Z" 0).2 (by decide),
    (discovery_terminates cycleGraph "A" 5).1⟩

/-- Claim C8 (confirmed).  A branch with no own commits is skipped with no
mutation: `rebaseBranch` returns immediately with an empty event trace — no
checkout, no reset, no cherry-pick attempt. -/
theorem skip_no_commits_no_mutation (g : RunOracle) (branch onto : String)
    (h : g.ownCommits branch onto = []) :
    rebaseBranch g branch onto = ([], RebaseResult.returned true) :=
  rebaseBranch_noCommits g branch onto h

/-- Witness for C8. -/
theorem skip_no_commits_no_mutation_witness :
    rebaseBranch gNoCommits "feature-a" "base"
      = ([], RebaseResult.returned true) :=
  skip_no_commits_no_mutation gNoCommits "feature-a" "base" rfl

/-- Claim C9 (confirmed).  With `N ≥ 1` collected commits and no genuine
conflict, replay returns success after exactly `N` cherry-pick attempts, one
per collected commit, in oldest-first order (the reverse of the newest-first
`git log` output); failed-but-clean attempts are skipped explicitly yet still
counted. -/
theorem clean_replay_exact_attempts (g : RunOracle) (branch onto : String)
    (hne : g.ownCommits branch onto ≠ [])
    (hck : g.checkoutOk branch = true) (hrs : g.resetOk onto = true)
    (hclean : ∀ c ∈ g.ownCommits branch onto,
      commitClean g.applyResult c = true) :
    (rebaseBranch g branch onto).2 = RebaseResult.returned true
    ∧ attemptedHashes (rebaseBranch g branch onto).1
        = (g.ownCommits branch onto).reverse
    ∧ (attemptedHashes (rebaseBranch g branch onto).1).length
        = (g.ownCommits branch onto).length := by
  rw [rebaseBranch_clean g branch onto hne hck hrs hclean]
  refine ⟨rfl, ?_, ?_⟩
  · simp [attemptedHashes_cons_checkout, attemptedHashes_cons_reset,
      attemptedHashes_cleanReplay]
  · simp [attemptedHashes_cons_checkout, attemptedHashes_cons_reset,
      attemptedHashes_cleanReplay]

/-- Witness for C9: branch `b4` has commits `d1` (fails empty, skipped) and
`d2` (applies); both are attempted, oldest first. -/
theorem clean_replay_exact_attempts_witness :
    (rebaseBranch gMixed "b4" "b1").2 = RebaseResult.returned true
    ∧ attemptedHashes (rebaseBranch gMixed "b4" "b1").1 = ["d1", "d2"]
    ∧ (attemptedHashes (rebaseBranch gMixed "b4" "b1").1).length = 2 := by
  have h := clean_replay_exact_attempts gMixed "b4" "b1" (by decide) rfl rfl
    (by decide)
  exact ⟨h.1, h.2.1, h.2.2⟩

/-- Claim C10 (confirmed).  A link whose branch has zero own commits is still
force-pushed and still increments the success tally, exactly like an applied
branch, because `rebaseBranch` returns the same value (`true`) in the
skipped-no-commits case as in the success case. -/
theorem skipped_branch_still_pushed (g : RunOracle) (item : PR)
    (rest : List PR)
    (hempty : g.ownCommits item.branch item.target = [])
    (hpush : g.pushOk item.branch = true) :
    executeRebaseLoop g (item :: rest) =
      (linkPreamble g item ++ [Event.push item.branch] ++
          (executeRebaseLoop g rest).1,
        (executeRebaseLoop g rest).2.1 + 1,
        (executeRebaseLoop g rest).2.2)
    ∧ rebaseBranch g item.branch item.target
        = ([], RebaseResult.returned true) :=
  ⟨executeRebaseLoop_skip_head g item rest hempty hpush,
    rebaseBranch_noCommits g item.branch item.target hempty⟩

/-- Witness for C10. -/
theorem skipped_branch_still_pushed_witness :
    executeRebaseLoop gNoCommits [⟨1, "feature-a", "t", "base"⟩] =
      (linkPreamble gNoCommits ⟨1, "feature-a", "t", "base"⟩ ++
          [Event.push "feature-a"] ++
          (executeRebaseLoop gNoCommits []).1,
        (executeRebaseLoop gNoCommits []).2.1 + 1,
        (executeRebaseLoop gNoCommits []).2.2)
    ∧ rebaseBranch gNoCommits "feature-a" "base"
        = ([], RebaseResult.returned true) :=
  skipped_branch_still_pushed gNoCommits ⟨1, "feature-a", "t", "base"⟩ []
    rfl rfl

/-- Claim C1 (confirmed).  If a cherry-pick of some commit `c` fails and the
status shows genuine conflict markers, the whole run dies on the spot
(`process.exit 1`): the run's entire event trace is the completed earlier
links, the failing link's preamble, its checkout and reset, the clean replay
of the commits before `c`, and the attempt of `c` — nothing for the
remaining commits of that branch, no push of that branch, no event for any
later chain link, not even the final checkout back to the original branch. -/
theorem conflict_halts_run (g : RunOracle) (pre post : List PR) (item : PR)
    (good rest : List String) (c st : String)
    (originalBranch : String) (confirmed : Bool)
    (hpre : ∀ l ∈ pre, linkCompletes g l = true)
    (hck : g.checkoutOk item.branch = true)
    (hrs : g.resetOk item.target = true)
    (hsplit : (g.ownCommits item.branch item.target).reverse =
      good ++ c :: rest)
    (hgood : ∀ x ∈ good, commitClean g.applyResult x = true)
    (happ : g.applyResult c = some st)
    (hconf : hasConflict st = true) :
    executeRebase g (pre ++ item :: post) originalBranch true confirmed =
      (Event.fetchOrigin ::
        (completedEvents g pre ++ (linkPreamble g item ++
          (Event.checkout item.branch :: Event.reset item.target ::
            (cleanReplayEvents g.applyResult good ++
              [Event.applyAttempt c])))),
        pre.length, some 1) := by
  have hexit := executeRebaseLoop_exit_head g item post _ 1
    (rebaseBranch_conflict g item.branch item.target good rest c st hck hrs
      hsplit hgood happ hconf)
  have hloop := executeRebaseLoop_completed g pre (item :: post) hpre
  rw [hexit] at hloop
  unfold executeRebase
  rw [if_neg (by simp)]
  rw [hloop]
  simp [List.append_assoc]

/-- Witness for C1 on `gMixed`: link `b1 → base` completes, link `b2 → b1`
conflicts on its second commit `c2`, link `b3 → b2` never starts. -/
theorem conflict_halts_run_witness :
    executeRebase gMixed
        [⟨1, "b1", "t1", "base"⟩, ⟨2, "b2", "t2", "b1"⟩,
          ⟨3, "b3", "t3", "b2"⟩] "orig" true true =
      (Event.fetchOrigin ::
        (completedEvents gMixed [⟨1, "b1", "t1", "base"⟩] ++
          (linkPreamble gMixed ⟨2, "b2", "t2", "b1"⟩ ++
            (Event.checkout "b2" :: Event.reset "b1" ::
              (cleanReplayEvents gMixed.applyResult ["c1"] ++
                [Event.applyAttempt "c2"])))),
        1, some 1) :=
  conflict_halts_run gMixed [⟨1, "b1", "t1", "base"⟩]
    [⟨3, "b3", "t3", "b2"⟩] ⟨2, "b2", "t2", "b1"⟩ ["c1"] ["c3"] "c2" "UU f"
    "orig" true (by decide) (by decide) (by decide) (by decide) (by decide)
    (by decide) (by decide)

/-- Claim C2 (confirmed).  If the discovered chain contains a protected head
branch anywhere, `main` exits with code 1 before any side effect: the event
trace is empty — no backup ref, no checkout, no reset, no cherry-pick, no
push, not even the pre-run fetch.  A protected *starting* branch alone only
sets the warning flag: when no chain head is protected the run goes on to
`executeRebase` unchanged. -/
theorem protected_chain_aborts (g : RunOracle) (graph : List RawPR)
    (startInput originalBranch : String)
    (dryRun skipConfirmation confirmed : Bool) (startBranch : String)
    (hs : sanitizeBranchName startInput = Except.ok startBranch) :
    ((∃ b ∈ getBranchesInChain (discoverChain graph startBranch),
        isProtectedBranch b = true) →
      runMain g graph startInput originalBranch dryRun skipConfirmation
          confirmed
        = ⟨[], 0, some 1, isProtectedBranch startBranch⟩)
    ∧ ((∀ b ∈ getBranchesInChain (discoverChain graph startBranch),
          isProtectedBranch b = false) →
        discoverChain graph startBranch ≠ [] → dryRun = false →
        runMain g graph startInput originalBranch dryRun skipConfirmation
            confirmed
          = ⟨(executeRebase g (discoverChain graph startBranch)
                originalBranch skipConfirmation confirmed).1,
              (executeRebase g (discoverChain graph startBranch)
                originalBranch skipConfirmation confirmed).2.1,
              (executeRebase g (discoverChain graph startBranch)
                originalBranch skipConfirmation confirmed).2.2,
              isProtectedBranch startBranch⟩) := by
  constructor
  · rintro ⟨b, hb, hpb⟩
    have hne : discoverChain graph startBranch ≠ [] := by
      intro h0
      rw [h0] at hb
      cases hb
    unfold runMain
    rw [hs]
    dsimp only
    rw [if_neg (by
      simp only [beq_iff_eq, List.length_eq_zero]
      exact hne)]
    rw [if_pos (List.length_pos.mpr
      (List.ne_nil_of_mem (List.mem_filter.mpr ⟨hb, hpb⟩)))]
  · intro hnone hne hdry
    unfold runMain
    rw [hs]
    dsimp only
    rw [if_neg (by
      simp only [beq_iff_eq, List.length_eq_zero]
      exact hne)]
    rw [if_neg (by
      rw [List.filter_eq_nil_iff.mpr (by
        intro b hb
        rw [hnone b hb]
        exact Bool.false_ne_true)]
      simp)]
    rw [if_neg (by rw [hdry]; decide)]

/-- Witness for C2: a chain containing the protected head `develop` aborts
with no events, while starting *from* `main` (protected) only warns
(`startWarned = true`) and proceeds into `executeRebase`. -/
theorem protected_chain_aborts_witness :
    runMain gNoCommits protectedChainGraph "feature-x" "orig" false true true
        = ⟨[], 0, some 1, false⟩
    ∧ runMain gNoCommits fromMainGraph "main" "orig" false true true
        = ⟨(executeRebase gNoCommits (discoverChain fromMainGraph "main")
              "orig" true true).1,
            (executeRebase gNoCommits (discoverChain fromMainGraph "main")
              "orig" true true).2.1,
            (executeRebase gNoCommits (discoverChain fromMainGraph "main")
              "orig" true true).2.2,
            true⟩ :=
  ⟨(protected_chain_aborts gNoCommits protectedChainGraph "feature-x" "orig"
      false true true "feature-x" rfl).1 ⟨"develop", by decide, by decide⟩,
    (protected_chain_aborts gNoCommits fromMainGraph "main" "orig" false
      true true "main" rfl).2 (by decide) (by decide) rfl⟩

/-- Claim C4 (corrected).  The amended claim: every head name that reaches a
chain link did pass validation and was kept verbatim (never silently
corrected), but a validation violation of a PR head is **not** a hard
failure of the run — the `catch` in `findPRsTargeting` swallows it and
reports zero PRs, so the chain ends quietly at that base and the run
proceeds with whatever was discovered before (see
`invalid_head_quiet_skip_counterexample`). -/
theorem invalid_head_never_silently_corrected
    (ghList : String → Option (List RawPR)) (base : String) :
    (∀ pr ∈ findPRsTargeting ghList base,
        sanitizeBranchName pr.branch = Except.ok pr.branch)
    ∧ ∀ raws, ghList base = some raws →
        (∃ r ∈ raws, ∃ e,
          sanitizeBranchName r.headRefName = Except.error e) →
        findPRsTargeting ghList base = [] := by
  constructor
  · intro pr hpr
    unfold findPRsTargeting at hpr
    cases hs : sanitizeBranchName base with
    | error e =>
      simp only [hs] at hpr
      cases hpr
    | ok safe =>
      simp only [hs] at hpr
      cases hg : ghList safe with
      | none =>
        simp only [hg] at hpr
        cases hpr
      | some raws =>
        simp only [hg] at hpr
        cases hm : mapPRs base raws with
        | error e =>
          simp only [hm] at hpr
          cases hpr
        | ok prs =>
          simp only [hm] at hpr
          exact mapPRs_branch_sanitized hm pr hpr
  · intro raws hg hbad
    unfold findPRsTargeting
    cases hs : sanitizeBranchName base with
    | error e => rfl
    | ok safe =>
      have hsafe : safe = base := sanitize_ok_eq hs
      subst hsafe
      dsimp only
      rw [hg]
      dsimp only
      obtain ⟨e2, herr⟩ := mapPRs_error safe hbad
      rw [herr]

/-- Counterexample for C4.  A PR head name with a space fails validation,
yet `findPRsTargeting` reports no PRs instead of failing, and the whole run
finishes with exit code 0 ("nothing to rebase") and an empty event trace —
no hard failure anywhere. -/
theorem invalid_head_quiet_skip_counterexample :
    sanitizeBranchName "evil name"
        = Except.error ("Invalid branch name: evil name")
    ∧ findPRsTargeting (ghLookup badHeadGraph) "start" = []
    ∧ runMain gNoCommits badHeadGraph "start" "orig" false true true
        = ⟨[], 0, some 0, false⟩ :=
  ⟨rfl, by decide, by decide⟩

/-- Witness for C4: a base whose lookup returns one valid and one invalid
head yields the empty PR list. -/
theorem invalid_head_never_silently_corrected_witness :
    findPRsTargeting ghMixedHeads "s" = [] :=
  (invalid_head_never_silently_corrected ghMixedHeads "s").2
    [⟨1, "good-branch", "s", "t"⟩, ⟨2, "bad head", "s", "t"⟩] rfl
    ⟨⟨2, "bad head", "s", "t"⟩, by decide,
      "Invalid branch name: bad head", rfl⟩

end RebaseDownstream
